import Mathlib

/-!
Verification development for `toomanycells/similarityMatrix.py`
(the `SimilarityMatrix` class of too-many-cells-python).

The Python code is shallowly embedded over exact rationals.  Library
routines that the source treats as trusted numerical primitives
(`scipy.sparse.linalg.eigs` / `eigsh`, `sklearn` truncated SVD,
`np.sqrt`, `sklearn` pairwise kernel evaluation) are modelled as
abstract oracle functions supplied as parameters; everything the
source computes itself (row sums, flags, clamping, masks, modularity,
control flow, error raising) is embedded directly.  A `RowSubset` of
length `n` over an `N`-row matrix is an index array `Fin n → Fin N`.
-/

namespace TMC

/-- Matrices are total functions on `Fin` index pairs, entries in `ℚ`. -/
abbrev Mat (n m : ℕ) := Fin n → Fin m → ℚ

/-- Vectors. -/
abbrev Vec (n : ℕ) := Fin n → ℚ

/-- Threshold `self.eps = 1e-9` from `__init__`. -/
def eps : ℚ := 1 / 1000000000

/-- Python exceptions raised by the embedded code: `ValueError(msg)`
and a `TypeError` (raised by the interpreter for a call that omits a
required positional argument). -/
inductive PyErr
  | valueError (msg : String)
  | typeError
  deriving DecidableEq, Repr

/-- Abstract eigensolver / SVD / square-root oracles standing for the
trusted library calls.  The eigensolvers consume the two operators
(laplacian and mass) through their matrix-vector products, exactly the
interface `scipy` sees; `hermitian` returns `none` when `eigsh`
fails numerically (the `except:` path of the source). `svdTransform`
stands for `TruncatedSVD(n_components=2).fit_transform`, returning the
pair (singular values, transformed matrix). `sqrtO` stands for
`np.sqrt` on nonnegative floats. -/
structure EigenOracles where
  general : (n : ℕ) → ((Vec n → Vec n)) → ((Vec n → Vec n)) → Vec n
  hermitian : (n : ℕ) → ((Vec n → Vec n)) → ((Vec n → Vec n)) → Option (Vec n)
  svdTransform : (n m : ℕ) → Mat n m → (Fin 2 → ℚ) × (Fin n → Fin 2 → ℚ)
  sqrtO : ℚ → ℚ

/-- Flag `zero_row_sums_mask = np.abs(row_sums) < self.eps;
has_zero_row_sums = zero_row_sums_mask.any()`. -/
def hasZeroRS {n : ℕ} (rs : Vec n) : Bool :=
  decide (∃ i, |rs i| < eps)

/-- Flag `has_neg_row_sums = (row_sums < -self.eps).any()`. -/
def hasNegRS {n : ℕ} (rs : Vec n) : Bool :=
  decide (∃ i, rs i < -eps)

/-- Clamp `row_sums[zero_row_sums_mask] = 0`, executed only under
`if has_zero_row_sums:`. -/
def clampIfZero {n : ℕ} (rs : Vec n) : Vec n :=
  if hasZeroRS rs then (fun i => if |rs i| < eps then 0 else rs i) else rs

/-- Selection `rows[mask]`: the sub-sequence of the index array `rows` at the
positions where the boolean mask holds, keeping the original row index
values. -/
def maskParts {N n : ℕ} (rows : Fin n → Fin N) (mask : Fin n → Bool) :
    List (Fin N) :=
  ((List.finRange n).filter (fun i => mask i)).map (fun i => rows i)

/-- Count `mask.sum()` as a rational. -/
def maskCount {n : ℕ} (mask : Fin n → Bool) : ℚ :=
  ((List.finRange n).filter (fun i => mask i)).length

/-- Indicator `ones_msk = ones * mask`. -/
def onesMsk {n : ℕ} (mask : Fin n → Bool) : Vec n :=
  fun i => if mask i then 1 else 0

/-- Shared tail of the three partition functions: build
`mask_c1 = 0 < W`, `mask_c2 = ~mask_c1`; if either mask covers every
position, return `(Q, partition) = (0, [])`; otherwise accumulate the
modularity term of each mask and emit `[rows[mask_c1], rows[mask_c2]]`.
`qTerm` is the per-mask summand `O_c / L_all - (L_c / L_all)**2`. -/
def splitEpilogue {N n : ℕ} (rows : Fin n → Fin N) (W : Vec n)
    (qTerm : (Fin n → Bool) → ℚ) : ℚ × List (List (Fin N)) :=
  let mask1 : Fin n → Bool := fun i => decide (0 < W i)
  let mask2 : Fin n → Bool := fun i => ! mask1 i
  if (∀ i, mask1 i = true) ∨ (∀ i, mask2 i = true) then (0, [])
  else (qTerm mask1 + qTerm mask2, [maskParts rows mask1, maskParts rows mask2])

/-! ## compute_partition_for_full -/

/-- Block `S = self.X[np.ix_(rows, rows)]`. -/
def restrictFull {N n : ℕ} (X : Mat N N) (rows : Fin n → Fin N) : Mat n n :=
  fun i j => X (rows i) (rows j)

/-- Sums `row_sums = S.dot(ones)` in `compute_partition_for_full`, computed
from the restricted block; the clamp happens after them. -/
def rawRowSumsFull {N n : ℕ} (X : Mat N N) (rows : Fin n → Fin N) : Vec n :=
  fun i => ∑ j, restrictFull X rows i j

/-- The diagonal of the degree operator `row_sums_mtx = sp.diags(row_sums)`
in `compute_partition_for_full`.  `sp.diags` copies its input, and the
call occurs before the `row_sums[zero_row_sums_mask] = 0` line, so it
captures the unclamped row sums. -/
def degreeVecFull {N n : ℕ} (X : Mat N N) (rows : Fin n → Fin N) : Vec n :=
  rawRowSumsFull X rows

/-- Summand `O_c / L_all - (L_c / L_all)**2` for one mask in
`compute_partition_for_full`, with `row_sums_msk = S @ ones_msk`,
`O_c = ones_msk @ row_sums_msk - n_rows_msk` and
`L_c = ones_msk @ row_sums - n_rows_msk` (post-clamp `row_sums`). -/
def qTermFull {n : ℕ} (S : Mat n n) (rsClamped : Vec n) (Lall : ℚ)
    (mask : Fin n → Bool) : ℚ :=
  let nMsk := maskCount mask
  let om := onesMsk mask
  let rowSumsMsk : Vec n := fun i => ∑ j, S i j * om j
  let Oc := (∑ i, om i * rowSumsMsk i) - nMsk
  let Lc := (∑ i, om i * rsClamped i) - nMsk
  Oc / Lall - (Lc / Lall) ^ 2

/-- Eigenvector selection of `compute_partition_for_full`: with negative
row sums use the general solver; otherwise try the hermitian solver and
fall back to the general one on numerical failure.  Both operators are
built from the unclamped `S` and `row_sums` (they were formed before the
clamp line).  The oracles already return the eigenvector belonging to the
larger-magnitude of the two requested eigenpairs, matching the
`argmax(abs(eigenvalues))` selection performed after every solver call. -/
def chosenWFull {N n : ℕ} (oc : EigenOracles) (X : Mat N N)
    (rows : Fin n → Fin N) : Vec n :=
  let S := restrictFull X rows
  let dv := degreeVecFull X rows
  let lapMV : Vec n → Vec n :=
    fun v => fun i => dv i * v i - ∑ j, S i j * v j
  let massMV : Vec n → Vec n := fun v => fun i => dv i * v i
  if hasNegRS (rawRowSumsFull X rows) then
    oc.general n lapMV massMV
  else
    match oc.hermitian n lapMV massMV with
    | some w => w
    | none => oc.general n lapMV massMV

/-- Function `compute_partition_for_full`. -/
def compute_partition_for_full {N n : ℕ} (oc : EigenOracles) (X : Mat N N)
    (rows : Fin n → Fin N) : Except PyErr (ℚ × List (List (Fin N))) :=
  if n < 3 then .ok (0, []) else
  let S := restrictFull X rows
  let rs := rawRowSumsFull X rows
  let Lall : ℚ := (∑ i, rs i) - n
  let rs' := clampIfZero rs
  if hasNegRS rs && hasZeroRS rs then
    .error (.valueError "Cannot have negative and zero row sums.")
  else
    .ok (splitEpilogue rows (chosenWFull oc X rows) (qTermFull S rs' Lall))

/-! ## compute_partition_for_cosp -/

/-- Block `B = self.X[rows,:]` (rows of the feature matrix). -/
def restrictRows {N M n : ℕ} (X : Mat N M) (rows : Fin n → Fin N) :
    Mat n M :=
  fun i k => X (rows i) k

/-- Sums `partial_row_sums = B.T.dot(ones)` (column sums of the block). -/
def colSumsCosp {N M n : ℕ} (X : Mat N M) (rows : Fin n → Fin N) : Vec M :=
  fun k => ∑ i, restrictRows X rows i k

/-- Sums `row_sums = B @ partial_row_sums`: the row sums of the implicit
similarity matrix `B @ B.T`, before any clamping. -/
def rawRowSumsCosp {N M n : ℕ} (X : Mat N M) (rows : Fin n → Fin N) :
    Vec n :=
  fun i => ∑ k, restrictRows X rows i k * colSumsCosp X rows k

/-- Diagonal used for `sp.diags(row_sums)` in `compute_partition_for_cosp`:
here the clamp `row_sums[zero_row_sums_mask] = 0` happens before any
operator is formed, so the captured values are the clamped ones. -/
def degreeVecCosp {N M n : ℕ} (X : Mat N M) (rows : Fin n → Fin N) :
    Vec n :=
  clampIfZero (rawRowSumsCosp X rows)

/-- The three eigenvector strategies of `compute_partition_for_cosp`:
`if has_neg_row_sums: ... elif use_hermitian_method or has_zero_row_sums:
... else: (truncated SVD fast path)`. -/
inductive CospStrategy
  | generalSolver
  | hermitianPath
  | svdFast
  deriving DecidableEq, Repr

/-- Branch selection of `compute_partition_for_cosp` (flags are computed
from the unclamped row sums). -/
def cospStrategy {n : ℕ} (useHermitian : Bool) (rsRaw : Vec n) :
    CospStrategy :=
  if hasNegRS rsRaw then .generalSolver
  else if useHermitian || hasZeroRS rsRaw then .hermitianPath
  else .svdFast

/-- Eigenvector selection of `compute_partition_for_cosp`.  The laplacian
is `sp.diags(row_sums) - B @ B.T` with the post-clamp row sums; the fast
path scales `B` by `d = 1/np.sqrt(row_sums)` and keeps the column of
`trunc_SVD.fit_transform(D @ B)` at `np.argsort(singular_values)[0]`,
the index of the smaller of the two retained singular values. -/
def chosenWCosp {N M n : ℕ} (oc : EigenOracles) (useHermitian : Bool)
    (X : Mat N M) (rows : Fin n → Fin N) : Vec n :=
  let B := restrictRows X rows
  let rs' := degreeVecCosp X rows
  let lapMV : Vec n → Vec n :=
    fun v => fun i => rs' i * v i - ∑ j, (∑ k, B i k * B j k) * v j
  let massMV : Vec n → Vec n := fun v => fun i => rs' i * v i
  match cospStrategy useHermitian (rawRowSumsCosp X rows) with
  | .generalSolver => oc.general n lapMV massMV
  | .hermitianPath =>
    match oc.hermitian n lapMV massMV with
    | some w => w
    | none => oc.general n lapMV massMV
  | .svdFast =>
    let C : Mat n M := fun i k => (1 / oc.sqrtO (rs' i)) * B i k
    let sv := (oc.svdTransform n M C).1
    let Wm := (oc.svdTransform n M C).2
    let idx0 : Fin 2 := if sv 1 < sv 0 then 1 else 0
    fun i => Wm i idx0

/-- Summand `O_c / L_all - (L_c / L_all)**2` for one mask in
`compute_partition_for_cosp`, with `row_sums_msk = B.T.dot(ones_msk)`,
`O_c = row_sums_msk @ row_sums_msk - n_rows_msk`,
`L_c = ones_msk @ row_sums - n_rows_msk` (post-clamp `row_sums`). -/
def qTermCosp {n M : ℕ} (B : Mat n M) (rsClamped : Vec n) (Lall : ℚ)
    (mask : Fin n → Bool) : ℚ :=
  let nMsk := maskCount mask
  let om := onesMsk mask
  let rowSumsMsk : Vec M := fun k => ∑ i, B i k * om i
  let Oc := (∑ k, rowSumsMsk k * rowSumsMsk k) - nMsk
  let Lc := (∑ i, om i * rsClamped i) - nMsk
  Oc / Lall - (Lc / Lall) ^ 2

/-- Function `compute_partition_for_cosp`. -/
def compute_partition_for_cosp {N M n : ℕ} (oc : EigenOracles)
    (useHermitian : Bool) (X : Mat N M) (rows : Fin n → Fin N) :
    Except PyErr (ℚ × List (List (Fin N))) :=
  if n < 3 then .ok (0, []) else
  let B := restrictRows X rows
  let cs := colSumsCosp X rows
  let Lall : ℚ := (∑ k, cs k * cs k) - n
  let rs := rawRowSumsCosp X rows
  let rs' := clampIfZero rs
  if hasNegRS rs && hasZeroRS rs then
    .error (.valueError "Cannot have negative and zero row sums.")
  else
    .ok (splitEpilogue rows (chosenWCosp oc useHermitian X rows)
          (qTermCosp B rs' Lall))

/-! ## generate_norm_sim_as_linear_op and compute_partition_for_normsp -/

/-- A scipy `LinearOperator`, reduced to its two products. -/
structure LinOp (n : ℕ) where
  matvec : Vec n → Vec n
  rmatvec : Vec n → Vec n

/-- The `mat_vec_prod` closure of `generate_norm_sim_as_linear_op`:
`norm_sq = norms * (ones @ vec); norm_sq += ones * (norms @ vec);
norm_sq -= 2 * B @ (B.T @ vec); norm_sq *= inv_diam_sq;
return ones * (ones @ vec) - norm_sq`. -/
def normSimMatVec {n M : ℕ} (B : Mat n M) (norms : Vec n) (invDiamSq : ℚ)
    (v : Vec n) : Vec n :=
  fun i =>
    (∑ j, v j) -
      invDiamSq * (norms i * (∑ j, v j) + (∑ j, norms j * v j) -
        2 * (∑ k, B i k * (∑ j, B j k * v j)))

/-- Operator `generate_norm_sim_as_linear_op(rows)`: `B = self.X[rows,:]`,
`norms = self.norm_sq_vec[rows]`, and the operator uses `mat_vec_prod`
for both `matvec` and `rmatvec`. -/
def generate_norm_sim_as_linear_op {N M n : ℕ} (X : Mat N M)
    (normSqVec : Vec N) (invDiamSq : ℚ) (rows : Fin n → Fin N) : LinOp n :=
  let B := restrictRows X rows
  let norms : Vec n := fun i => normSqVec (rows i)
  { matvec := normSimMatVec B norms invDiamSq
    rmatvec := normSimMatVec B norms invDiamSq }

/-- Sums `row_sums = similarity_op @ ones` in `compute_partition_for_normsp`. -/
def rawRowSumsNormsp {N M n : ℕ} (X : Mat N M) (normSqVec : Vec N)
    (invDiamSq : ℚ) (rows : Fin n → Fin N) : Vec n :=
  (generate_norm_sim_as_linear_op X normSqVec invDiamSq rows).matvec
    (fun _ => 1)

/-- The diagonal captured by
`row_sums_op = self.generate_diag_as_linear_op(row_sums)` in
`compute_partition_for_normsp`: `sp.diags` copies, and the call occurs
before the clamp line, so the unclamped row sums are captured. -/
def degreeVecNormsp {N M n : ℕ} (X : Mat N M) (normSqVec : Vec N)
    (invDiamSq : ℚ) (rows : Fin n → Fin N) : Vec n :=
  rawRowSumsNormsp X normSqVec invDiamSq rows

/-- Eigenvector selection of `compute_partition_for_normsp`, identical in
structure to the full case but acting through matrix-free operators. -/
def chosenWNormsp {N M n : ℕ} (oc : EigenOracles) (X : Mat N M)
    (normSqVec : Vec N) (invDiamSq : ℚ) (rows : Fin n → Fin N) : Vec n :=
  let simMV :=
    (generate_norm_sim_as_linear_op X normSqVec invDiamSq rows).matvec
  let dv := degreeVecNormsp X normSqVec invDiamSq rows
  let lapMV : Vec n → Vec n := fun v => fun i => dv i * v i - simMV v i
  let massMV : Vec n → Vec n := fun v => fun i => dv i * v i
  if hasNegRS (rawRowSumsNormsp X normSqVec invDiamSq rows) then
    oc.general n lapMV massMV
  else
    match oc.hermitian n lapMV massMV with
    | some w => w
    | none => oc.general n lapMV massMV

/-- Summand `O_c / L_all - (L_c / L_all)**2` for one mask in
`compute_partition_for_normsp`, with
`row_sums_msk = similarity_op @ ones_msk`. -/
def qTermNormsp {n : ℕ} (simMV : Vec n → Vec n) (rsClamped : Vec n)
    (Lall : ℚ) (mask : Fin n → Bool) : ℚ :=
  let nMsk := maskCount mask
  let om := onesMsk mask
  let rowSumsMsk := simMV om
  let Oc := (∑ i, om i * rowSumsMsk i) - nMsk
  let Lc := (∑ i, om i * rsClamped i) - nMsk
  Oc / Lall - (Lc / Lall) ^ 2

/-- Function `compute_partition_for_normsp`. -/
def compute_partition_for_normsp {N M n : ℕ} (oc : EigenOracles)
    (X : Mat N M) (normSqVec : Vec N) (invDiamSq : ℚ)
    (rows : Fin n → Fin N) : Except PyErr (ℚ × List (List (Fin N))) :=
  if n < 3 then .ok (0, []) else
  let simMV :=
    (generate_norm_sim_as_linear_op X normSqVec invDiamSq rows).matvec
  let rs := rawRowSumsNormsp X normSqVec invDiamSq rows
  let Lall : ℚ := (∑ i, rs i) - n
  let rs' := clampIfZero rs
  if hasNegRS rs && hasZeroRS rs then
    .error (.valueError "Cannot have negative and zero row sums.")
  else
    .ok (splitEpilogue rows (chosenWNormsp oc X normSqVec invDiamSq rows)
          (qTermNormsp simMV rs' Lall))

/-! ## Partition invariants (C1) -/

/-- What a valid `PartitionResult` must satisfy whenever it is non-empty:
exactly two parts, both non-empty, disjoint, and covering the input
subset exactly (as sets of original row index values). -/
def partitionSpec {N n : ℕ} (rows : Fin n → Fin N)
    (res : Except PyErr (ℚ × List (List (Fin N)))) : Prop :=
  ∀ q parts, res = .ok (q, parts) → parts ≠ [] →
    ∃ p1 p2, parts = [p1, p2] ∧ p1 ≠ [] ∧ p2 ≠ [] ∧
      (∀ x, ¬(x ∈ p1 ∧ x ∈ p2)) ∧
      (∀ x, (x ∈ p1 ∨ x ∈ p2) ↔ ∃ i, rows i = x)

lemma mem_maskParts {N n : ℕ} {rows : Fin n → Fin N}
    {mask : Fin n → Bool} {x : Fin N} :
    x ∈ maskParts rows mask ↔ ∃ i, mask i = true ∧ rows i = x := by
  simp only [maskParts, List.mem_map, List.mem_filter, List.mem_finRange,
    true_and]

/-- Core property of the mask split: when neither mask covers every
position, the two parts are non-empty, disjoint, and cover the subset. -/
lemma maskParts_spec {N n : ℕ} {rows : Fin n → Fin N}
    (hinj : Function.Injective rows) (mask1 : Fin n → Bool)
    (h1 : ¬ ∀ i, mask1 i = true) (h2 : ¬ ∀ i, (! mask1 i) = true) :
    maskParts rows mask1 ≠ [] ∧ maskParts rows (fun i => ! mask1 i) ≠ [] ∧
    (∀ x, ¬(x ∈ maskParts rows mask1 ∧
      x ∈ maskParts rows (fun i => ! mask1 i))) ∧
    (∀ x, (x ∈ maskParts rows mask1 ∨
      x ∈ maskParts rows (fun i => ! mask1 i)) ↔ ∃ i, rows i = x) := by
  obtain ⟨i₂, hi₂⟩ := not_forall.mp h1
  obtain ⟨i₁, hi₁⟩ := not_forall.mp h2
  have hi₂' : mask1 i₂ = false := by
    cases h : mask1 i₂ with
    | true => exact absurd h hi₂
    | false => rfl
  have hi₁' : mask1 i₁ = true := by
    cases h : mask1 i₁ with
    | true => rfl
    | false => exact absurd (by simp [h]) hi₁
  refine ⟨?_, ?_, ?_, ?_⟩
  · exact List.ne_nil_of_mem (mem_maskParts.mpr ⟨i₁, hi₁', rfl⟩)
  · exact List.ne_nil_of_mem (mem_maskParts.mpr ⟨i₂, by simp [hi₂'], rfl⟩)
  · rintro x ⟨hx1, hx2⟩
    obtain ⟨j₁, hj₁, he₁⟩ := mem_maskParts.mp hx1
    obtain ⟨j₂, hj₂, he₂⟩ := mem_maskParts.mp hx2
    have : j₁ = j₂ := hinj (he₁.trans he₂.symm)
    subst this
    simp [hj₁] at hj₂
  · intro x
    constructor
    · rintro (hx | hx) <;>
      · obtain ⟨j, _, he⟩ := mem_maskParts.mp hx
        exact ⟨j, he⟩
    · rintro ⟨j, hj⟩
      cases h : mask1 j with
      | true => exact Or.inl (mem_maskParts.mpr ⟨j, h, hj⟩)
      | false => exact Or.inr (mem_maskParts.mpr ⟨j, by simp [h], hj⟩)

lemma splitEpilogue_parts {N n : ℕ} {rows : Fin n → Fin N}
    (hinj : Function.Injective rows) (W : Vec n)
    (qt : (Fin n → Bool) → ℚ) :
    (splitEpilogue rows W qt).2 = [] ∨
    ∃ p1 p2, (splitEpilogue rows W qt).2 = [p1, p2] ∧ p1 ≠ [] ∧ p2 ≠ [] ∧
      (∀ x, ¬(x ∈ p1 ∧ x ∈ p2)) ∧
      (∀ x, (x ∈ p1 ∨ x ∈ p2) ↔ ∃ i, rows i = x) := by
  simp only [splitEpilogue]
  split
  · exact Or.inl rfl
  · rename_i hg
    rw [not_or] at hg
    obtain ⟨hmask, hrest⟩ := maskParts_spec hinj
      (fun i => decide (0 < W i)) hg.1 hg.2
    exact Or.inr ⟨_, _, rfl, hmask, hrest⟩

/-- Every result of the three partition functions is `(0, [])`, an
exception, or the split epilogue applied to some vector. -/
lemma partitionSpec_of_shape {N n : ℕ} {rows : Fin n → Fin N}
    (hinj : Function.Injective rows)
    {res : Except PyErr (ℚ × List (List (Fin N)))}
    (hres : res = .ok (0, []) ∨ (∃ e, res = .error e) ∨
      ∃ W qt, res = .ok (splitEpilogue rows W qt)) :
    partitionSpec rows res := by
  intro q parts hok hne
  rcases hres with h | ⟨e, h⟩ | ⟨W, qt, h⟩
  · have h2 := Except.ok.inj (h.symm.trans hok)
    exact absurd (congrArg Prod.snd h2).symm hne
  · exact Except.noConfusion (h.symm.trans hok)
  · have h2 := Except.ok.inj (h.symm.trans hok)
    have h3 : (splitEpilogue rows W qt).2 = parts := congrArg Prod.snd h2
    rcases splitEpilogue_parts hinj W qt with h4 | ⟨p1, p2, hp, rest⟩
    · exact absurd (h3 ▸ h4) hne
    · exact ⟨p1, p2, h3 ▸ hp, rest⟩

lemma shape_full {N n : ℕ} (oc : EigenOracles) (X : Mat N N)
    (rows : Fin n → Fin N) :
    compute_partition_for_full oc X rows = .ok (0, []) ∨
    (∃ e, compute_partition_for_full oc X rows = .error e) ∨
    ∃ W qt, compute_partition_for_full oc X rows =
      .ok (splitEpilogue rows W qt) := by
  simp only [compute_partition_for_full]
  split
  · exact Or.inl rfl
  · split
    · exact Or.inr (Or.inl ⟨_, rfl⟩)
    · exact Or.inr (Or.inr ⟨_, _, rfl⟩)

lemma shape_cosp {N M n : ℕ} (oc : EigenOracles) (useHermitian : Bool)
    (X : Mat N M) (rows : Fin n → Fin N) :
    compute_partition_for_cosp oc useHermitian X rows = .ok (0, []) ∨
    (∃ e, compute_partition_for_cosp oc useHermitian X rows = .error e) ∨
    ∃ W qt, compute_partition_for_cosp oc useHermitian X rows =
      .ok (splitEpilogue rows W qt) := by
  simp only [compute_partition_for_cosp]
  split
  · exact Or.inl rfl
  · split
    · exact Or.inr (Or.inl ⟨_, rfl⟩)
    · exact Or.inr (Or.inr ⟨_, _, rfl⟩)

lemma shape_normsp {N M n : ℕ} (oc : EigenOracles) (X : Mat N M)
    (normSqVec : Vec N) (invDiamSq : ℚ) (rows : Fin n → Fin N) :
    compute_partition_for_normsp oc X normSqVec invDiamSq rows
      = .ok (0, []) ∨
    (∃ e, compute_partition_for_normsp oc X normSqVec invDiamSq rows
      = .error e) ∨
    ∃ W qt, compute_partition_for_normsp oc X normSqVec invDiamSq rows =
      .ok (splitEpilogue rows W qt) := by
  simp only [compute_partition_for_normsp]
  split
  · exact Or.inl rfl
  · split
    · exact Or.inr (Or.inl ⟨_, rfl⟩)
    · exact Or.inr (Or.inr ⟨_, _, rfl⟩)

/-- C1: for every call to `compute_partition_for_cosp`,
`compute_partition_for_full`, or `compute_partition_for_normsp` on a
`RowSubset` of distinct row indices that returns a non-empty partition,
the partition contains exactly two parts, both parts are non-empty, the
parts are disjoint, and their union (as sets of original row index
values, not positions) equals the input `RowSubset` exactly, for every
kernel (the eigensolver and SVD oracles are universally quantified). -/
theorem C1_partition_invariant {N M n : ℕ} (oc : EigenOracles)
    (useHermitian : Bool) (X : Mat N M) (Xs : Mat N N) (normSqVec : Vec N)
    (invDiamSq : ℚ) (rows : Fin n → Fin N)
    (hinj : Function.Injective rows) :
    partitionSpec rows (compute_partition_for_cosp oc useHermitian X rows) ∧
    partitionSpec rows (compute_partition_for_full oc Xs rows) ∧
    partitionSpec rows
      (compute_partition_for_normsp oc X normSqVec invDiamSq rows) :=
  ⟨partitionSpec_of_shape hinj (shape_cosp oc useHermitian X rows),
   partitionSpec_of_shape hinj (shape_full oc Xs rows),
   partitionSpec_of_shape hinj (shape_normsp oc X normSqVec invDiamSq rows)⟩

/-- A concrete, fully computable oracle assignment usable on concrete
inputs: every eigensolver returns the all-ones vector, `eigsh` always
succeeds, the SVD returns all-ones output, and the square root is the
identity. -/
def onesOracles : EigenOracles where
  general := fun _ _ _ => fun _ => 1
  hermitian := fun _ _ _ => some (fun _ => 1)
  svdTransform := fun _ _ _ => (fun _ => 1, fun _ _ => 1)
  sqrtO := fun q => q

theorem C1_partition_invariant_witness :
    Function.Injective (id : Fin 3 → Fin 3) ∧
    (partitionSpec (id : Fin 3 → Fin 3)
        (compute_partition_for_cosp onesOracles false
          ((fun _ _ => 1) : Mat 3 1) id) ∧
      partitionSpec (id : Fin 3 → Fin 3)
        (compute_partition_for_full onesOracles
          ((fun _ _ => 1) : Mat 3 3) id) ∧
      partitionSpec (id : Fin 3 → Fin 3)
        (compute_partition_for_normsp onesOracles ((fun _ _ => 1) : Mat 3 1)
          (fun _ => 1) 0 id)) :=
  ⟨fun _ _ h => h,
    C1_partition_invariant onesOracles false ((fun _ _ => 1) : Mat 3 1)
      ((fun _ _ => 1) : Mat 3 3) (fun _ => 1) 0 id (fun _ _ h => h)⟩

/-! ## Degenerate calls (C2) -/

/-- When the chosen eigenvector puts every position in one class, the
split epilogue returns `(0, [])`. -/
lemma splitEpilogue_degenerate {N n : ℕ} (rows : Fin n → Fin N)
    (W : Vec n) (qt : (Fin n → Bool) → ℚ)
    (h : (∀ i, 0 < W i) ∨ (∀ i, ¬ 0 < W i)) :
    splitEpilogue rows W qt = (0, []) := by
  simp only [splitEpilogue]
  rw [if_pos]
  rcases h with h | h
  · exact Or.inl (fun i => decide_eq_true (h i))
  · exact Or.inr (fun i => by simp [h i])

lemma and_flags_false {n : ℕ} {rs : Vec n}
    (h : ¬(hasNegRS rs = true ∧ hasZeroRS rs = true)) :
    (hasNegRS rs && hasZeroRS rs) = false := by
  cases h1 : hasNegRS rs <;> cases h2 : hasZeroRS rs <;> simp_all

/-- C2: every degenerate call returns modularity 0 and an empty
partition.  (a) For every input subset with fewer than 3 rows, each of
the three partition functions returns `(Q = 0, [])`, unconditionally.
(b) When the `UnprocessableMatrix` condition does not hold (so the call
reaches the split) and the chosen eigenvector `W` puts every row in one
class (`{i : W i > 0}` is everything or empty), the call returns
`(Q = 0, [])` — stated for each of the three functions, for every
kernel/solver oracle. -/
theorem C2_degenerate_zero_empty {N M n : ℕ} (oc : EigenOracles)
    (useHermitian : Bool) (X : Mat N M) (Xs : Mat N N) (normSqVec : Vec N)
    (invDiamSq : ℚ) (rows : Fin n → Fin N) :
    (n < 3 →
      compute_partition_for_cosp oc useHermitian X rows = .ok (0, []) ∧
      compute_partition_for_full oc Xs rows = .ok (0, []) ∧
      compute_partition_for_normsp oc X normSqVec invDiamSq rows
        = .ok (0, [])) ∧
    (¬(hasNegRS (rawRowSumsCosp X rows) = true ∧
        hasZeroRS (rawRowSumsCosp X rows) = true) →
      ((∀ i, 0 < chosenWCosp oc useHermitian X rows i) ∨
        (∀ i, ¬ 0 < chosenWCosp oc useHermitian X rows i)) →
      compute_partition_for_cosp oc useHermitian X rows = .ok (0, [])) ∧
    (¬(hasNegRS (rawRowSumsFull Xs rows) = true ∧
        hasZeroRS (rawRowSumsFull Xs rows) = true) →
      ((∀ i, 0 < chosenWFull oc Xs rows i) ∨
        (∀ i, ¬ 0 < chosenWFull oc Xs rows i)) →
      compute_partition_for_full oc Xs rows = .ok (0, [])) ∧
    (¬(hasNegRS (rawRowSumsNormsp X normSqVec invDiamSq rows) = true ∧
        hasZeroRS (rawRowSumsNormsp X normSqVec invDiamSq rows) = true) →
      ((∀ i, 0 < chosenWNormsp oc X normSqVec invDiamSq rows i) ∨
        (∀ i, ¬ 0 < chosenWNormsp oc X normSqVec invDiamSq rows i)) →
      compute_partition_for_normsp oc X normSqVec invDiamSq rows
        = .ok (0, [])) := by
  refine ⟨?_, ?_, ?_, ?_⟩
  · intro h
    refine ⟨?_, ?_, ?_⟩ <;>
      simp only [compute_partition_for_cosp, compute_partition_for_full,
        compute_partition_for_normsp, if_pos h]
  · intro hflags hdeg
    by_cases hl : n < 3
    · simp only [compute_partition_for_cosp, if_pos hl]
    · simp only [compute_partition_for_cosp, if_neg hl,
        and_flags_false hflags, Bool.false_eq_true, if_false,
        splitEpilogue_degenerate rows _ _ hdeg]
  · intro hflags hdeg
    by_cases hl : n < 3
    · simp only [compute_partition_for_full, if_pos hl]
    · simp only [compute_partition_for_full, if_neg hl,
        and_flags_false hflags, Bool.false_eq_true, if_false,
        splitEpilogue_degenerate rows _ _ hdeg]
  · intro hflags hdeg
    by_cases hl : n < 3
    · simp only [compute_partition_for_normsp, if_pos hl]
    · simp only [compute_partition_for_normsp, if_neg hl,
        and_flags_false hflags, Bool.false_eq_true, if_false,
        splitEpilogue_degenerate rows _ _ hdeg]

theorem C2_degenerate_zero_empty_witness :
    compute_partition_for_cosp onesOracles false ((fun _ _ => 1) : Mat 3 1)
      (id : Fin 3 → Fin 3) = .ok (0, []) := by
  have hraw : ∀ i, rawRowSumsCosp ((fun _ _ => 1) : Mat 3 1)
      (id : Fin 3 → Fin 3) i = 3 := by
    intro i
    simp [rawRowSumsCosp, colSumsCosp, restrictRows]
  have hneg : hasNegRS (rawRowSumsCosp ((fun _ _ => 1) : Mat 3 1)
      (id : Fin 3 → Fin 3)) = false := by
    simp only [hasNegRS, decide_eq_false_iff_not, not_exists, not_lt]
    intro i
    rw [hraw i]
    norm_num [eps]
  have hzero : hasZeroRS (rawRowSumsCosp ((fun _ _ => 1) : Mat 3 1)
      (id : Fin 3 → Fin 3)) = false := by
    simp only [hasZeroRS, decide_eq_false_iff_not, not_exists, not_lt]
    intro i
    rw [hraw i]
    norm_num [eps]
  refine (C2_degenerate_zero_empty onesOracles false
      ((fun _ _ => 1) : Mat 3 1) ((fun _ _ => 1) : Mat 3 3)
      (fun _ => 1) 0 id).2.1 ?_ ?_
  · simp [hneg]
  · left
    intro i
    simp [chosenWCosp, cospStrategy, hneg, hzero, onesOracles]

/-! ## UnprocessableMatrix and clamping (C3) -/

/-- Whether a call raised an exception. -/
def isErr {α : Type _} (e : Except PyErr α) : Bool :=
  match e with
  | .error _ => true
  | .ok _ => false

lemma isErr_ite_shape {α : Type _} {c : Bool} {e : PyErr} {v : α} :
    isErr (if c = true then Except.error e else Except.ok v) = true ↔
      c = true := by
  cases c <;> simp [isErr]

/-- Concrete 3×3 similarity block whose first row sums to `5·10⁻¹⁰`
(zero-magnitude for the `1e-9` threshold, but nonzero) and whose other
rows sum to 1. -/
def tinyRowSumMat : Mat 3 3 :=
  fun i j =>
    if i = j then (if i = 0 then 1 / 2000000000 else 1) else 0

/-- C3 counterexample: on `tinyRowSumMat` with the subset of all 3 rows,
`compute_partition_for_full` sees a zero-magnitude row sum and no
negative row sum, completes normally, and yet the diagonal captured for
the degree operator `sp.diags(row_sums)` still holds the unclamped value
`5·10⁻¹⁰ ≠ 0`: the clamp happens only after the degree operator was
formed, refuting the claim that zero sums are clamped to exactly 0
before the degree operator is formed in every partition call. -/
theorem C3_claim_counterexample :
    hasZeroRS (rawRowSumsFull tinyRowSumMat (id : Fin 3 → Fin 3)) = true ∧
    hasNegRS (rawRowSumsFull tinyRowSumMat (id : Fin 3 → Fin 3)) = false ∧
    |rawRowSumsFull tinyRowSumMat (id : Fin 3 → Fin 3) 0| < eps ∧
    degreeVecFull tinyRowSumMat (id : Fin 3 → Fin 3) 0 ≠ 0 ∧
    isErr (compute_partition_for_full onesOracles tinyRowSumMat
      (id : Fin 3 → Fin 3)) = false := by
  have hraw : ∀ i, rawRowSumsFull tinyRowSumMat (id : Fin 3 → Fin 3) i
      = if i = 0 then 1 / 2000000000 else 1 := by
    intro i
    fin_cases i <;>
      simp [rawRowSumsFull, restrictFull, tinyRowSumMat, Fin.sum_univ_three]
  have habs : |rawRowSumsFull tinyRowSumMat (id : Fin 3 → Fin 3) 0| < eps := by
    rw [hraw 0, if_pos rfl,
      abs_of_pos (by norm_num : (0 : ℚ) < 1 / 2000000000)]
    norm_num [eps]
  have hzero : hasZeroRS (rawRowSumsFull tinyRowSumMat
      (id : Fin 3 → Fin 3)) = true := by
    simp only [hasZeroRS, decide_eq_true_eq]
    exact ⟨0, habs⟩
  have hneg : hasNegRS (rawRowSumsFull tinyRowSumMat
      (id : Fin 3 → Fin 3)) = false := by
    simp only [hasNegRS, decide_eq_false_iff_not, not_exists, not_lt]
    intro i
    rw [hraw i]
    split <;> norm_num [eps]
  refine ⟨hzero, hneg, habs, ?_, ?_⟩
  · show rawRowSumsFull tinyRowSumMat (id : Fin 3 → Fin 3) 0 ≠ 0
    rw [hraw 0]
    norm_num
  · simp [compute_partition_for_full, hneg, isErr]

/-- C3 (amended): for every partition call on a subset of at least 3
rows, the call raises `UnprocessableMatrix` (the hard
`Cannot have negative and zero row sums.` error) if and only if the row
sums contain both a zero-magnitude entry (`|·| < 1e-9`) and a negative
entry (`< -1e-9`); this holds for all three partition functions, so a
zero-magnitude sum without a negative one lets the call complete
normally.  Clamping, however, reaches the degree operator only in
`compute_partition_for_cosp` (where the clamp precedes `sp.diags`): in
`compute_partition_for_full` and `compute_partition_for_normsp` the
degree operator captures the unclamped row sums, because `sp.diags`
copies its argument before the clamp line runs. -/
theorem C3_unprocessable_iff {N M n : ℕ} (oc : EigenOracles)
    (useHermitian : Bool) (X : Mat N M) (Xs : Mat N N) (normSqVec : Vec N)
    (invDiamSq : ℚ) (rows : Fin n → Fin N) (h3 : 3 ≤ n) :
    (isErr (compute_partition_for_cosp oc useHermitian X rows) = true ↔
      hasZeroRS (rawRowSumsCosp X rows) = true ∧
        hasNegRS (rawRowSumsCosp X rows) = true) ∧
    (isErr (compute_partition_for_full oc Xs rows) = true ↔
      hasZeroRS (rawRowSumsFull Xs rows) = true ∧
        hasNegRS (rawRowSumsFull Xs rows) = true) ∧
    (isErr (compute_partition_for_normsp oc X normSqVec invDiamSq rows)
        = true ↔
      hasZeroRS (rawRowSumsNormsp X normSqVec invDiamSq rows) = true ∧
        hasNegRS (rawRowSumsNormsp X normSqVec invDiamSq rows) = true) ∧
    (∀ i, |rawRowSumsCosp X rows i| < eps → degreeVecCosp X rows i = 0) ∧
    degreeVecFull Xs rows = rawRowSumsFull Xs rows ∧
    degreeVecNormsp X normSqVec invDiamSq rows
      = rawRowSumsNormsp X normSqVec invDiamSq rows := by
  have hlen : ¬ n < 3 := Nat.not_lt.mpr h3
  refine ⟨?_, ?_, ?_, ?_, rfl, rfl⟩
  · simp only [compute_partition_for_cosp, if_neg hlen, isErr_ite_shape]
    rw [Bool.and_eq_true]
    exact and_comm
  · simp only [compute_partition_for_full, if_neg hlen, isErr_ite_shape]
    rw [Bool.and_eq_true]
    exact and_comm
  · simp only [compute_partition_for_normsp, if_neg hlen, isErr_ite_shape]
    rw [Bool.and_eq_true]
    exact and_comm
  · intro i h
    have hz : hasZeroRS (rawRowSumsCosp X rows) = true :=
      decide_eq_true ⟨i, h⟩
    show clampIfZero (rawRowSumsCosp X rows) i = 0
    rw [clampIfZero, if_pos hz]
    exact if_pos h

theorem C3_unprocessable_iff_witness :
    (3 ≤ 3) ∧
    (isErr (compute_partition_for_full onesOracles
        ((fun _ _ => 1) : Mat 3 3) (id : Fin 3 → Fin 3)) = true ↔
      hasZeroRS (rawRowSumsFull ((fun _ _ => 1) : Mat 3 3)
          (id : Fin 3 → Fin 3)) = true ∧
        hasNegRS (rawRowSumsFull ((fun _ _ => 1) : Mat 3 3)
          (id : Fin 3 → Fin 3)) = true) :=
  ⟨le_refl 3,
    (C3_unprocessable_iff onesOracles false ((fun _ _ => 1) : Mat 3 1)
        ((fun _ _ => 1) : Mat 3 3) (fun _ => 1) 0 id (le_refl 3)).2.1⟩

/-! ## The cosine_sparse SVD fast path (C4) -/

/-- The split vector described by the spec for the cosine_sparse
strategy, written from the spec's words for comparison with the code:
scale the restricted rows by `1/sqrt(row_sum)`, take the rank-2
truncated SVD of the scaled block, and select the left singular vector
paired with the smaller of the two retained singular values. -/
def svdSplitVector {N M n : ℕ} (oc : EigenOracles) (X : Mat N M)
    (rows : Fin n → Fin N) : Vec n :=
  let B := restrictRows X rows
  let rs := rawRowSumsCosp X rows
  let scaled : Mat n M := fun i k => B i k / oc.sqrtO (rs i)
  let sv := (oc.svdTransform n M scaled).1
  let U := (oc.svdTransform n M scaled).2
  let small : Fin 2 := if sv 1 < sv 0 then 1 else 0
  fun i => U i small

/-- Oracle assignment separating the general-solver branch from the SVD
branch: the general solver returns all-ones, the SVD returns all-twos,
and the hermitian solver always fails. -/
def splitOracles : EigenOracles where
  general := fun _ _ _ => fun _ => 1
  hermitian := fun _ _ _ => none
  svdTransform := fun _ _ _ => (fun _ => 0, fun _ _ => 2)
  sqrtO := fun q => q

/-- A 3×1 feature block whose middle row is `-1`: row sums of
`B @ B.T` are `(1, -1, 1)`, so `has_neg_row_sums` holds. -/
def negRowMat : Mat 3 1 :=
  fun i _ => if i = 1 then -1 else 1

/-- C4 counterexample: on `negRowMat` with the subset of all 3 rows
(at least 3 rows, no exception raised), `compute_partition_for_cosp`
takes the general-eigensolver branch, and the split vector it uses is
not the truncated-SVD vector: the claim that every `≥ 3`-row call under
cosine_sparse obtains its split vector from the rank-2 SVD of the scaled
block is false. -/
theorem C4_claim_counterexample :
    hasNegRS (rawRowSumsCosp negRowMat (id : Fin 3 → Fin 3)) = true ∧
    cospStrategy false (rawRowSumsCosp negRowMat (id : Fin 3 → Fin 3))
      = .generalSolver ∧
    chosenWCosp splitOracles false negRowMat (id : Fin 3 → Fin 3) ≠
      svdSplitVector splitOracles negRowMat (id : Fin 3 → Fin 3) ∧
    isErr (compute_partition_for_cosp splitOracles false negRowMat
      (id : Fin 3 → Fin 3)) = false := by
  have hraw : ∀ i, rawRowSumsCosp negRowMat (id : Fin 3 → Fin 3) i
      = if i = 1 then -1 else 1 := by
    intro i
    fin_cases i <;>
      simp [rawRowSumsCosp, colSumsCosp, restrictRows, negRowMat,
        Fin.sum_univ_three]
  have hneg : hasNegRS (rawRowSumsCosp negRowMat
      (id : Fin 3 → Fin 3)) = true := by
    simp only [hasNegRS, decide_eq_true_eq]
    refine ⟨1, ?_⟩
    rw [hraw 1, if_pos rfl]
    norm_num [eps]
  have hzero : hasZeroRS (rawRowSumsCosp negRowMat
      (id : Fin 3 → Fin 3)) = false := by
    simp only [hasZeroRS, decide_eq_false_iff_not, not_exists, not_lt]
    intro i
    rw [hraw i]
    split <;> norm_num [eps]
  have hstrat : cospStrategy false (rawRowSumsCosp negRowMat
      (id : Fin 3 → Fin 3)) = .generalSolver := by
    simp [cospStrategy, hneg]
  refine ⟨hneg, hstrat, ?_, ?_⟩
  · intro hcontra
    have h1 : chosenWCosp splitOracles false negRowMat
        (id : Fin 3 → Fin 3) 0 = 1 := by
      simp [chosenWCosp, hstrat, splitOracles]
    have h2 : svdSplitVector splitOracles negRowMat
        (id : Fin 3 → Fin 3) 0 = 2 := by
      simp [svdSplitVector, splitOracles]
    rw [hcontra, h2] at h1
    norm_num at h1
  · simp [compute_partition_for_cosp, isErr, hzero]

/-- C4 (amended): for every call to `compute_partition_for_cosp` on a
subset of at least 3 rows whose row sums have no negative entry and no
zero-magnitude entry, and with the hermitian method not forced, the
strategy is the SVD fast path and the split vector is exactly the one
described by the spec: scale the restricted rows by `1/sqrt(row_sum)`,
take the rank-2 truncated SVD of the scaled block, and keep the left
singular vector paired with the smaller retained singular value; the
call returns the epilogue of that vector (no n×n product is formed on
this path). -/
theorem C4_svd_fast_path {N M n : ℕ} (oc : EigenOracles) (X : Mat N M)
    (rows : Fin n → Fin N)
    (hneg : hasNegRS (rawRowSumsCosp X rows) = false)
    (hzero : hasZeroRS (rawRowSumsCosp X rows) = false)
    (h3 : 3 ≤ n) :
    cospStrategy false (rawRowSumsCosp X rows) = .svdFast ∧
    chosenWCosp oc false X rows = svdSplitVector oc X rows ∧
    compute_partition_for_cosp oc false X rows =
      .ok (splitEpilogue rows (svdSplitVector oc X rows)
        (qTermCosp (restrictRows X rows)
          (clampIfZero (rawRowSumsCosp X rows))
          ((∑ k, colSumsCosp X rows k * colSumsCosp X rows k) - n))) := by
  have hstrat : cospStrategy false (rawRowSumsCosp X rows) = .svdFast := by
    simp [cospStrategy, hneg, hzero]
  have hclamp : clampIfZero (rawRowSumsCosp X rows) = rawRowSumsCosp X rows := by
    rw [clampIfZero, hzero]
    simp
  have hW : chosenWCosp oc false X rows = svdSplitVector oc X rows := by
    simp only [chosenWCosp, svdSplitVector, hstrat, degreeVecCosp, hclamp]
    have hm : (fun (i : Fin n) (k : Fin M) =>
        (1 / oc.sqrtO (rawRowSumsCosp X rows i)) * restrictRows X rows i k) =
        (fun (i : Fin n) (k : Fin M) =>
          restrictRows X rows i k / oc.sqrtO (rawRowSumsCosp X rows i)) := by
      funext i k
      rw [one_div, inv_mul_eq_div]
    rw [hm]
  refine ⟨hstrat, hW, ?_⟩
  have hlen : ¬ n < 3 := Nat.not_lt.mpr h3
  simp only [compute_partition_for_cosp, if_neg hlen, hneg,
    Bool.false_and, Bool.false_eq_true, if_false, hW]

theorem C4_svd_fast_path_witness :
    chosenWCosp onesOracles false ((fun _ _ => 1) : Mat 3 1)
        (id : Fin 3 → Fin 3)
      = svdSplitVector onesOracles ((fun _ _ => 1) : Mat 3 1)
        (id : Fin 3 → Fin 3) := by
  have hraw : ∀ i, rawRowSumsCosp ((fun _ _ => 1) : Mat 3 1)
      (id : Fin 3 → Fin 3) i = 3 := by
    intro i
    simp [rawRowSumsCosp, colSumsCosp, restrictRows]
  have hneg : hasNegRS (rawRowSumsCosp ((fun _ _ => 1) : Mat 3 1)
      (id : Fin 3 → Fin 3)) = false := by
    simp only [hasNegRS, decide_eq_false_iff_not, not_exists, not_lt]
    intro i
    rw [hraw i]
    norm_num [eps]
  have hzero : hasZeroRS (rawRowSumsCosp ((fun _ _ => 1) : Mat 3 1)
      (id : Fin 3 → Fin 3)) = false := by
    simp only [hasZeroRS, decide_eq_false_iff_not, not_exists, not_lt]
    intro i
    rw [hraw i]
    norm_num [eps]
  exact (C4_svd_fast_path onesOracles ((fun _ _ => 1) : Mat 3 1) id
    hneg hzero (le_refl 3)).2.1

/-! ## The norm_sparse linear operator (C5) -/

/-- The materialized symmetric similarity matrix the norm_sparse operator
is algebraically derived from:
`S(i,j) = 1 - invDiamSq * (norms i + norms j - 2 * (x_i · x_j))`. -/
def normSimS {n M : ℕ} (B : Mat n M) (norms : Vec n) (invDiamSq : ℚ) :
    Mat n n :=
  fun i j => 1 - invDiamSq * (norms i + norms j - 2 * ∑ k, B i k * B j k)

/-- C5: for every row subset and every vector of matching length, the
matvec of the operator returned by `generate_norm_sim_as_linear_op`
equals `1·(1ᵀv) − invDiamSq·(norm²·(1ᵀv) + 1·(norm²ᵀv) − 2·B·(Bᵀv))`,
which equals `S·v` for the materialized symmetric matrix
`S(i,j) = 1 − invDiamSq·(normᵢ² + normⱼ² − 2·xᵢ·xⱼ)`; the operator is
self-adjoint in the sense that matvec and rmatvec agree on every vector,
and `S` itself is symmetric. -/
theorem C5_norm_sim_linear_op {N M n : ℕ} (X : Mat N M) (normSqVec : Vec N)
    (invDiamSq : ℚ) (rows : Fin n → Fin N) (v : Vec n) :
    (generate_norm_sim_as_linear_op X normSqVec invDiamSq rows).matvec v =
      (fun i => ∑ j, normSimS (restrictRows X rows)
        (fun i => normSqVec (rows i)) invDiamSq i j * v j) ∧
    (generate_norm_sim_as_linear_op X normSqVec invDiamSq rows).rmatvec v =
      (generate_norm_sim_as_linear_op X normSqVec invDiamSq rows).matvec v ∧
    ∀ i j, normSimS (restrictRows X rows) (fun i => normSqVec (rows i))
        invDiamSq i j
      = normSimS (restrictRows X rows) (fun i => normSqVec (rows i))
        invDiamSq j i := by
  refine ⟨?_, rfl, ?_⟩
  · funext i
    simp only [generate_norm_sim_as_linear_op, normSimMatVec, normSimS]
    have hswap : (∑ k, restrictRows X rows i k *
          (∑ j, restrictRows X rows j k * v j))
        = ∑ j, (∑ k, restrictRows X rows i k * restrictRows X rows j k)
            * v j := by
      calc (∑ k, restrictRows X rows i k *
              (∑ j, restrictRows X rows j k * v j))
          = ∑ k, ∑ j, restrictRows X rows i k *
              (restrictRows X rows j k * v j) := by
            exact Finset.sum_congr rfl fun k _ => Finset.mul_sum _ _ _
        _ = ∑ j, ∑ k, restrictRows X rows i k *
              (restrictRows X rows j k * v j) := Finset.sum_comm
        _ = ∑ j, (∑ k, restrictRows X rows i k * restrictRows X rows j k)
              * v j := by
            refine Finset.sum_congr rfl fun j _ => ?_
            rw [Finset.sum_mul]
            exact Finset.sum_congr rfl fun k _ => by ring
    rw [hswap, Finset.mul_sum, Finset.mul_sum, ← Finset.sum_add_distrib,
      ← Finset.sum_sub_distrib, Finset.mul_sum, ← Finset.sum_sub_distrib]
    exact Finset.sum_congr rfl fun j _ => by ring
  · intro i j
    simp only [normSimS]
    have hd : (∑ k, restrictRows X rows i k * restrictRows X rows j k)
        = ∑ k, restrictRows X rows j k * restrictRows X rows i k :=
      Finset.sum_congr rfl fun k _ => mul_comm _ _
    rw [hd]
    ring

/-! ## compute_similarity_matrix (builder) -/

/-- Metric dispatch tags passed to the trusted sklearn pairwise
evaluators (`pairwise_kernels` / `pairwise_distances`). -/
inductive MetricTag
  | cosine
  | negExp (p pow gamma : ℚ)
  | laplacianK (gamma : ℚ)
  | rbf (gamma : ℚ)
  | l1dist
  | l2dist
  deriving DecidableEq, Repr

/-- Trusted library oracles for the similarity builder: the sklearn
pairwise kernel/distance evaluators produce a full n×n matrix from the
feature block; `tfidfO` is `TfidfTransformer(...).fit_transform`;
`normalizeO` stands for the row-normalization pass (embedded in detail
separately for the row-normalizer analysis); `sqrtO` is `np.sqrt`. -/
structure LibOracles where
  pairwiseO : (N M : ℕ) → MetricTag → Mat N M → Mat N N
  tfidfO : (N M : ℕ) → Option String → Bool → Mat N M → Mat N M
  normalizeO : (N M : ℕ) → Mat N M → Mat N M
  sqrtO : ℚ → ℚ

/-- Observable effects of `compute_similarity_matrix`, in program order:
shape reads, the tf-idf refit, the in-place row normalization, the
row-norm computation of the norm_sparse branch, dense kernel evaluation
over the entries, additive shifts, and `np.save` persistence carrying
the path and the saved dense 2-D array. -/
inductive BuildEv (N : ℕ)
  | shapeRead
  | tfidfApplied
  | rowsNormalized
  | normsComputed
  | kernelEvaluated
  | matrixShifted
  | saved (path : String) (data : Mat N N)
  deriving DecidableEq

/-- The representation built by `compute_similarity_matrix`: the
cosine_sparse path keeps the (normalized) feature matrix plus a
configured 2-component truncated SVD; the norm_sparse path would hold
the implicit-operator state `(norm_sq_vec, inv_diam_sq)`; every other
kernel replaces `self.X` by a dense n×n similarity matrix. -/
inductive BuiltRep (N M : ℕ)
  | sparseCos (X : Mat N M) (svdConfigured : Bool)
  | sparseNorm (X : Mat N M) (normSqVec : Vec N) (invDiamSq : ℚ)
  | dense (S : Mat N N)

/-- Minimum `self.X.min()` over all entries (numpy `min` of a non-empty array;
0 for the empty one, which the source never queries). -/
def listMinD : List ℚ → ℚ
  | [] => 0
  | x :: xs => xs.foldl min x

/-- Maximum `self.X.max()` over all entries, same convention. -/
def listMaxD : List ℚ → ℚ
  | [] => 0
  | x :: xs => xs.foldl max x

/-- All entries of a matrix, row-major. -/
def matEntries {n m : ℕ} (S : Mat n m) : List ℚ :=
  (List.finRange n).flatMap (fun i => (List.finRange m).map (fun j => S i j))

/-- Join `os.path.join` for a relative second component. -/
def osPathJoin (a b : String) : String := a ++ "/" ++ b

/-- The eight members of the `similarity_functions` list. -/
def kernelList : List String :=
  ["cosine_sparse", "norm_sparse", "cosine", "neg_exp", "laplacian",
   "gaussian", "div_by_sum", "div_by_delta_max"]

/-- The arguments of `compute_similarity_matrix`. -/
structure BuildArgs where
  shift_similarity_matrix : ℚ
  shift_until_nonnegative : Bool
  store_similarity_matrix : Bool
  normalize_rows : Bool
  similarity_function : String
  similarity_norm : ℚ
  similarity_power : ℚ
  similarity_gamma : Option ℚ
  use_tf_idf : Bool
  tf_idf_norm : Option String
  tf_idf_smooth : Bool

/-- Update `self.X *= -1/diam; self.X += 1` with `diam = self.X.max()`, for
`div_by_delta_max`. -/
def divDeltaMax {N : ℕ} (D : Mat N N) : Mat N N :=
  fun i j => D i j * (-1 / listMaxD (matEntries D)) + 1

/-- Tail of the dense branch: the optional uniform shift
(`shift_until_nonnegative` first, `elif shift != 0`), the optional
`np.save(os.path.join(self.output, "similarity_matrix.npy"), self.X)`,
and the final dense representation. -/
def densePost {N M : ℕ} (output : String) (a : BuildArgs) (S : Mat N N)
    (evs : List (BuildEv N)) :
    List (BuildEv N) × Except PyErr (BuiltRep N M) :=
  let minv := listMinD (matEntries S)
  let S' : Mat N N :=
    if a.shift_until_nonnegative then
      (if minv < 0 then (fun i j => S i j + (-minv)) else S)
    else if a.shift_similarity_matrix ≠ 0 then
      (fun i j => S i j + a.shift_similarity_matrix)
    else S
  let evs2 := evs ++
    (if (a.shift_until_nonnegative ∧ minv < 0) ∨
        (¬a.shift_until_nonnegative ∧ a.shift_similarity_matrix ≠ 0) then
      [BuildEv.matrixShifted] else [])
  let evs3 := evs2 ++
    (if a.store_similarity_matrix then
      [BuildEv.saved (osPathJoin output "similarity_matrix.npy") S']
    else [])
  (evs3, .ok (.dense S'))

/-- The dense kernel dispatch (`cosine`, `neg_exp`, `laplacian`,
`gaussian`, `div_by_sum`, `div_by_delta_max`); for the two `div_by_*`
kernels the `similarity_norm ∈ {1, 2}` check precedes the pairwise
distance evaluation. -/
def denseKernel {N M : ℕ} (lib : LibOracles) (output : String)
    (X : Mat N M) (a : BuildArgs) (gamma : ℚ) (evs : List (BuildEv N)) :
    List (BuildEv N) × Except PyErr (BuiltRep N M) :=
  if a.similarity_function = "cosine" then
    densePost output a (lib.pairwiseO N M .cosine X)
      (evs ++ [.kernelEvaluated])
  else if a.similarity_function = "neg_exp" then
    densePost output a
      (lib.pairwiseO N M (.negExp a.similarity_norm a.similarity_power gamma) X)
      (evs ++ [.kernelEvaluated])
  else if a.similarity_function = "laplacian" then
    densePost output a (lib.pairwiseO N M (.laplacianK gamma) X)
      (evs ++ [.kernelEvaluated])
  else if a.similarity_function = "gaussian" then
    densePost output a (lib.pairwiseO N M (.rbf gamma) X)
      (evs ++ [.kernelEvaluated])
  else if a.similarity_function = "div_by_sum" then
    if a.similarity_norm = 1 then
      densePost output a
        (fun i j => lib.pairwiseO N M .l1dist X i j * (-(1/2)) + 1)
        (evs ++ [.kernelEvaluated])
    else if a.similarity_norm = 2 then
      densePost output a
        (fun i j => lib.pairwiseO N M .l2dist X i j * (-(1/2)) + 1)
        (evs ++ [.kernelEvaluated])
    else (evs, .error (.valueError "Similarity norm should be 1 or 2."))
  else
    if a.similarity_norm = 1 then
      densePost output a (divDeltaMax (lib.pairwiseO N M .l1dist X))
        (evs ++ [.kernelEvaluated])
    else if a.similarity_norm = 2 then
      densePost output a (divDeltaMax (lib.pairwiseO N M .l2dist X))
        (evs ++ [.kernelEvaluated])
    else (evs, .error (.valueError "Similarity norm should be 1 or 2."))

/-- Continuation of `compute_similarity_matrix` after gamma resolution:
the power check, the kernel-name check, the tf-idf section, the
normalization section (`normalize_rows or use_cos_sp or use_dbs`), and
the similarity section.  The norm_sparse branch computes the vector of
row norms (setting `norm_sq_vec`) and then calls
`compute_diameter_for_observations()` with no argument, although the
method requires a positional `matrix` parameter: the interpreter raises
`TypeError` there, before any diameter or `inv_diam_sq` exists. -/
def buildAfterGamma {N M : ℕ} (lib : LibOracles) (output : String)
    (X₀ : Mat N M) (a : BuildArgs) (gamma : ℚ) (evs0 : List (BuildEv N)) :
    List (BuildEv N) × Except PyErr (BuiltRep N M) :=
  if a.similarity_power ≤ 0 then
    (evs0, .error (.valueError "Unexpected similarity power."))
  else if a.similarity_function ∉ kernelList then
    (evs0, .error (.valueError "Unexpected similarity fun."))
  else if a.use_tf_idf ∧ ¬(a.tf_idf_norm = none ∨ a.tf_idf_norm = some "l2"
      ∨ a.tf_idf_norm = some "l1") then
    (evs0, .error (.valueError "Unexpected tf norm."))
  else
  let X₁ := if a.use_tf_idf then
      lib.tfidfO N M a.tf_idf_norm a.tf_idf_smooth X₀
    else X₀
  let evs1 := evs0 ++ (if a.use_tf_idf then [BuildEv.tfidfApplied] else [])
  let doNorm := a.normalize_rows = true ∨
    a.similarity_function = "cosine_sparse" ∨
    a.similarity_function = "div_by_sum"
  let X₂ := if doNorm then lib.normalizeO N M X₁ else X₁
  let evs2 := evs1 ++ (if doNorm then [BuildEv.rowsNormalized] else [])
  if a.similarity_function = "cosine_sparse" then
    (evs2, .ok (.sparseCos X₂ true))
  else if a.similarity_function = "norm_sparse" then
    (evs2 ++ [BuildEv.normsComputed], .error .typeError)
  else
    denseKernel lib output X₂ a gamma (evs2 ++ [BuildEv.shapeRead])

/-- Function `compute_similarity_matrix`.  Validation and phase order follow the
source; matrix-level library operations go through `LibOracles`; the
returned list is the chronological effect trace.  `output` is the
caller-supplied output directory held by the object (`self.output`,
assigned outside this module; the spec describes persistence to a
caller-specified location). -/
def compute_similarity_matrix {N M : ℕ} (lib : LibOracles) (output : String)
    (X₀ : Mat N M) (a : BuildArgs) :
    List (BuildEv N) × Except PyErr (BuiltRep N M) :=
  if a.similarity_norm < 1 then
    ([], .error (.valueError "Unexpected similarity norm."))
  else
    match a.similarity_gamma with
    | none =>
      buildAfterGamma lib output X₀ a (1 / (M : ℚ)) [BuildEv.shapeRead]
    | some g =>
      if g ≤ 0 then ([], .error (.valueError "Unexpected similarity gamma."))
      else buildAfterGamma lib output X₀ a g []

/-! ## norm_sparse entry point (C6) -/

lemma buildAfterGamma_norm_sparse {N M : ℕ} (lib : LibOracles)
    (output : String) (X : Mat N M) (a : BuildArgs) (g : ℚ)
    (evs0 : List (BuildEv N))
    (hfn : a.similarity_function = "norm_sparse")
    (hpow : ¬ a.similarity_power ≤ 0)
    (htf : a.use_tf_idf = true →
      (a.tf_idf_norm = none ∨ a.tf_idf_norm = some "l2" ∨
        a.tf_idf_norm = some "l1")) :
    (buildAfterGamma lib output X a g evs0).2 = .error .typeError := by
  have h1 : ¬ (a.similarity_function ∉ kernelList) := by
    rw [hfn]
    decide
  have h2 : ¬(a.use_tf_idf = true ∧ ¬(a.tf_idf_norm = none ∨
      a.tf_idf_norm = some "l2" ∨ a.tf_idf_norm = some "l1")) :=
    fun h => h.2 (htf h.1)
  rw [buildAfterGamma, if_neg hpow, if_neg h1, if_neg h2]
  simp [hfn]

/-- C6: for every input matrix, calling `compute_similarity_matrix` with
`similarity_function = "norm_sparse"` and otherwise valid parameters
raises a `TypeError`, because `compute_diameter_for_observations` is
invoked with no argument for its required `matrix` parameter;
consequently the implicit-operator state `(norm_sq_vec, inv_diam_sq)` is
never successfully built by this entry point (no representation is
returned at all). -/
theorem C6_norm_sparse_type_error {N M : ℕ} (lib : LibOracles)
    (output : String) (X : Mat N M) (a : BuildArgs)
    (hfn : a.similarity_function = "norm_sparse")
    (hnorm : ¬ a.similarity_norm < 1)
    (hgamma : ∀ g, a.similarity_gamma = some g → 0 < g)
    (hpow : ¬ a.similarity_power ≤ 0)
    (htf : a.use_tf_idf = true →
      (a.tf_idf_norm = none ∨ a.tf_idf_norm = some "l2" ∨
        a.tf_idf_norm = some "l1")) :
    (compute_similarity_matrix lib output X a).2 = .error .typeError ∧
    ∀ rep, (compute_similarity_matrix lib output X a).2 ≠ .ok rep := by
  have herr : (compute_similarity_matrix lib output X a).2
      = .error .typeError := by
    rw [compute_similarity_matrix, if_neg hnorm]
    cases hg : a.similarity_gamma with
    | none => exact buildAfterGamma_norm_sparse lib output X a _ _ hfn hpow htf
    | some g =>
      dsimp only
      rw [if_neg (not_le.mpr (hgamma g hg))]
      exact buildAfterGamma_norm_sparse lib output X a _ _ hfn hpow htf
  exact ⟨herr, fun rep hrep => Except.noConfusion (herr ▸ hrep)⟩

/-- Trivial library oracle assignment for concrete runs. -/
def trivLib : LibOracles where
  pairwiseO := fun _ _ _ _ => fun _ _ => 0
  tfidfO := fun _ _ _ _ X => X
  normalizeO := fun _ _ X => X
  sqrtO := fun q => q

/-- Arguments selecting the norm_sparse kernel with otherwise valid
parameters. -/
def nsArgs : BuildArgs where
  shift_similarity_matrix := 0
  shift_until_nonnegative := false
  store_similarity_matrix := false
  normalize_rows := false
  similarity_function := "norm_sparse"
  similarity_norm := 2
  similarity_power := 1
  similarity_gamma := some 1
  use_tf_idf := false
  tf_idf_norm := none
  tf_idf_smooth := true

theorem C6_norm_sparse_type_error_witness :
    (compute_similarity_matrix trivLib "out" ((fun _ _ => 1) : Mat 3 1)
      nsArgs).2 = .error .typeError :=
  (C6_norm_sparse_type_error trivLib "out" ((fun _ _ => 1) : Mat 3 1)
    nsArgs rfl (by norm_num [nsArgs])
    (fun g hg => by
      have : (1 : ℚ) = g := Option.some.inj hg
      rw [← this]
      norm_num)
    (by norm_num [nsArgs]) (fun h => Bool.noConfusion h)).1

/-! ## Invalid parameters (C8) -/

lemma compute_similarity_matrix_gamma_pos {N M : ℕ} (lib : LibOracles)
    (output : String) (X : Mat N M) (a : BuildArgs) (g : ℚ)
    (hnorm : ¬ a.similarity_norm < 1) (hg : a.similarity_gamma = some g)
    (hgpos : 0 < g) :
    compute_similarity_matrix lib output X a
      = buildAfterGamma lib output X a g [] := by
  rw [compute_similarity_matrix, if_neg hnorm, hg]
  dsimp only
  rw [if_neg (not_le.mpr hgpos)]

lemma buildAfterGamma_dbs {N M : ℕ} (lib : LibOracles) (output : String)
    (X : Mat N M) (a : BuildArgs) (g : ℚ) (evs0 : List (BuildEv N))
    (hfn : a.similarity_function = "div_by_sum")
    (hpow : ¬ a.similarity_power ≤ 0)
    (htf : a.use_tf_idf = false)
    (h1 : a.similarity_norm ≠ 1) (h2 : a.similarity_norm ≠ 2) :
    buildAfterGamma lib output X a g evs0
      = (evs0 ++ [BuildEv.rowsNormalized, BuildEv.shapeRead],
         .error (.valueError "Similarity norm should be 1 or 2.")) := by
  have hmem : ¬ (a.similarity_function ∉ kernelList) := by
    rw [hfn]
    decide
  have htf2 : ¬(a.use_tf_idf = true ∧ ¬(a.tf_idf_norm = none ∨
      a.tf_idf_norm = some "l2" ∨ a.tf_idf_norm = some "l1")) := by
    rw [htf]
    rintro ⟨h, _⟩
    exact Bool.noConfusion h
  rw [buildAfterGamma, if_neg hpow, if_neg hmem, if_neg htf2]
  simp [hfn, htf, denseKernel, h1, h2]

/-- Arguments selecting div_by_sum with the unsupported p-norm 3 and
everything else valid. -/
def dbsArgs : BuildArgs where
  shift_similarity_matrix := 0
  shift_until_nonnegative := false
  store_similarity_matrix := false
  normalize_rows := false
  similarity_function := "div_by_sum"
  similarity_norm := 3
  similarity_power := 1
  similarity_gamma := some 1
  use_tf_idf := false
  tf_idf_norm := none
  tf_idf_smooth := true

/-- C8 counterexample: with kernel `div_by_sum` and
`similarity_norm = 3` — one of the claim's invalid-parameter
conditions — `compute_similarity_matrix` raises the `InvalidParameter`
error only after the normalization phase has already mutated the rows of
the feature matrix (the `rowsNormalized` effect precedes the raise), so
the error is not raised before every access to or mutation of the
feature matrix. -/
theorem C8_claim_counterexample :
    (compute_similarity_matrix trivLib "out" ((fun _ _ => 1) : Mat 3 1)
        dbsArgs).2
      = .error (.valueError "Similarity norm should be 1 or 2.") ∧
    BuildEv.rowsNormalized ∈
      (compute_similarity_matrix trivLib "out" ((fun _ _ => 1) : Mat 3 1)
        dbsArgs).1 := by
  rw [compute_similarity_matrix_gamma_pos trivLib "out"
      ((fun _ _ => 1) : Mat 3 1) dbsArgs 1 (by norm_num [dbsArgs]) rfl
      (by norm_num),
    buildAfterGamma_dbs trivLib "out" ((fun _ _ => 1) : Mat 3 1) dbsArgs 1
      [] rfl (by norm_num [dbsArgs]) rfl (by norm_num [dbsArgs])
      (by norm_num [dbsArgs])]
  exact ⟨rfl, by simp⟩

/-- C8 (amended): the `InvalidParameter` conditions are raised in the
validation prologue — `similarity_norm < 1` and `similarity_gamma ≤ 0`
with an empty effect trace, `similarity_power ≤ 0` and an unknown kernel
with at most a shape read (used to default gamma) — before any access to
or mutation of the feature-matrix entries; in particular
`similarity_function = "bogus"` fails that way.  But the
`similarity_norm ∉ {1, 2}` check for `div_by_sum` runs only inside the
similarity section: since `div_by_sum` always normalizes rows first, the
feature matrix has already been mutated when that error is raised. -/
theorem C8_invalid_parameter_eager {N M : ℕ} (lib : LibOracles)
    (output : String) (X : Mat N M) (a : BuildArgs) :
    (a.similarity_norm < 1 →
      compute_similarity_matrix lib output X a
        = ([], .error (.valueError "Unexpected similarity norm."))) ∧
    (∀ g, a.similarity_gamma = some g → g ≤ 0 → ¬ a.similarity_norm < 1 →
      compute_similarity_matrix lib output X a
        = ([], .error (.valueError "Unexpected similarity gamma."))) ∧
    (¬ a.similarity_norm < 1 → (∀ g, a.similarity_gamma = some g → 0 < g) →
      a.similarity_power ≤ 0 →
      (compute_similarity_matrix lib output X a).2
          = .error (.valueError "Unexpected similarity power.") ∧
      ∀ e ∈ (compute_similarity_matrix lib output X a).1,
        e = BuildEv.shapeRead) ∧
    (¬ a.similarity_norm < 1 → (∀ g, a.similarity_gamma = some g → 0 < g) →
      ¬ a.similarity_power ≤ 0 → a.similarity_function ∉ kernelList →
      (compute_similarity_matrix lib output X a).2
          = .error (.valueError "Unexpected similarity fun.") ∧
      ∀ e ∈ (compute_similarity_matrix lib output X a).1,
        e = BuildEv.shapeRead) ∧
    (a.similarity_function = "div_by_sum" → ¬ a.similarity_norm < 1 →
      (∀ g, a.similarity_gamma = some g → 0 < g) →
      ¬ a.similarity_power ≤ 0 → a.use_tf_idf = false →
      a.similarity_norm ≠ 1 → a.similarity_norm ≠ 2 →
      (compute_similarity_matrix lib output X a).2
          = .error (.valueError "Similarity norm should be 1 or 2.") ∧
      BuildEv.rowsNormalized ∈
        (compute_similarity_matrix lib output X a).1) := by
  refine ⟨?_, ?_, ?_, ?_, ?_⟩
  · intro h
    rw [compute_similarity_matrix, if_pos h]
  · intro g hg hle hnorm
    rw [compute_similarity_matrix, if_neg hnorm, hg]
    dsimp only
    rw [if_pos hle]
  · intro hnorm hgamma hpow
    have key : ∀ (evs0 : List (BuildEv N)) g,
        buildAfterGamma lib output X a g evs0
          = (evs0, .error (.valueError "Unexpected similarity power.")) := by
      intro evs0 g
      rw [buildAfterGamma, if_pos hpow]
    rw [compute_similarity_matrix, if_neg hnorm]
    cases hg : a.similarity_gamma with
    | none =>
      dsimp only
      rw [key]
      exact ⟨rfl, by simp⟩
    | some g =>
      dsimp only
      rw [if_neg (not_le.mpr (hgamma g hg)), key]
      exact ⟨rfl, by simp⟩
  · intro hnorm hgamma hpow hmem
    have key : ∀ (evs0 : List (BuildEv N)) g,
        buildAfterGamma lib output X a g evs0
          = (evs0, .error (.valueError "Unexpected similarity fun.")) := by
      intro evs0 g
      rw [buildAfterGamma, if_neg hpow, if_pos hmem]
    rw [compute_similarity_matrix, if_neg hnorm]
    cases hg : a.similarity_gamma with
    | none =>
      dsimp only
      rw [key]
      exact ⟨rfl, by simp⟩
    | some g =>
      dsimp only
      rw [if_neg (not_le.mpr (hgamma g hg)), key]
      exact ⟨rfl, by simp⟩
  · intro hfn hnorm hgamma hpow htf h1 h2
    rw [compute_similarity_matrix, if_neg hnorm]
    cases hg : a.similarity_gamma with
    | none =>
      dsimp only
      rw [buildAfterGamma_dbs lib output X a _ _ hfn hpow htf h1 h2]
      exact ⟨rfl, by simp⟩
    | some g =>
      dsimp only
      rw [if_neg (not_le.mpr (hgamma g hg)),
        buildAfterGamma_dbs lib output X a _ _ hfn hpow htf h1 h2]
      exact ⟨rfl, by simp⟩

/-- Arguments selecting the unknown kernel name `"bogus"` with valid
numeric parameters. -/
def bogusArgs : BuildArgs where
  shift_similarity_matrix := 0
  shift_until_nonnegative := false
  store_similarity_matrix := false
  normalize_rows := false
  similarity_function := "bogus"
  similarity_norm := 2
  similarity_power := 1
  similarity_gamma := some 1
  use_tf_idf := false
  tf_idf_norm := none
  tf_idf_smooth := true

theorem C8_invalid_parameter_eager_witness :
    (compute_similarity_matrix trivLib "out" ((fun _ _ => 1) : Mat 3 1)
        bogusArgs).2
      = .error (.valueError "Unexpected similarity fun.") ∧
    ∀ e ∈ (compute_similarity_matrix trivLib "out"
        ((fun _ _ => 1) : Mat 3 1) bogusArgs).1,
      e = BuildEv.shapeRead :=
  (C8_invalid_parameter_eager trivLib "out" ((fun _ _ => 1) : Mat 3 1)
      bogusArgs).2.2.2.1
    (by norm_num [bogusArgs])
    (fun g hg => by
      have h1 : (1 : ℚ) = g := Option.some.inj hg
      rw [← h1]
      norm_num)
    (by norm_num [bogusArgs]) (by decide)

/-! ## Dense-matrix persistence (C10) -/

/-- The file paths written by `np.save` during a build, in order. -/
def savedPaths {N : ℕ} (evs : List (BuildEv N)) : List String :=
  evs.filterMap (fun e =>
    match e with
    | .saved p _ => some p
    | _ => none)

lemma densePost_saves {N M : ℕ} (output : String) (a : BuildArgs)
    (hstore : a.store_similarity_matrix = true) (S : Mat N N)
    (evs : List (BuildEv N)) :
    ∃ S',
      (densePost output a S evs :
        List (BuildEv N) × Except PyErr (BuiltRep N M)).2
        = .ok (.dense S') ∧
      BuildEv.saved (osPathJoin output "similarity_matrix.npy") S' ∈
        (densePost output a S evs :
          List (BuildEv N) × Except PyErr (BuiltRep N M)).1 := by
  refine ⟨_, rfl, ?_⟩
  simp [densePost, hstore]

lemma denseKernel_saves {N M : ℕ} (lib : LibOracles) (output : String)
    (X : Mat N M) (a : BuildArgs) (g : ℚ) (evs : List (BuildEv N))
    (hstore : a.store_similarity_matrix = true)
    (hker : a.similarity_function = "cosine" ∨
      a.similarity_function = "neg_exp" ∨
      a.similarity_function = "laplacian" ∨
      a.similarity_function = "gaussian" ∨
      ((a.similarity_function = "div_by_sum" ∨
        a.similarity_function = "div_by_delta_max") ∧
        (a.similarity_norm = 1 ∨ a.similarity_norm = 2))) :
    ∃ S, (denseKernel lib output X a g evs).2 = .ok (.dense S) ∧
      BuildEv.saved (osPathJoin output "similarity_matrix.npy") S ∈
        (denseKernel lib output X a g evs).1 := by
  rcases hker with h | h | h | h | ⟨hf, hn⟩
  · norm_num [denseKernel, h]
    exact densePost_saves output a hstore _ _
  · norm_num [denseKernel, h]
    exact densePost_saves output a hstore _ _
  · norm_num [denseKernel, h]
    exact densePost_saves output a hstore _ _
  · norm_num [denseKernel, h]
    exact densePost_saves output a hstore _ _
  · rcases hf with h | h <;> rcases hn with hn | hn <;>
    · norm_num [denseKernel, h, hn]
      exact densePost_saves output a hstore _ _

lemma buildAfterGamma_dense_saves {N M : ℕ} (lib : LibOracles)
    (output : String) (X : Mat N M) (a : BuildArgs) (g : ℚ)
    (evs0 : List (BuildEv N))
    (hpow : ¬ a.similarity_power ≤ 0)
    (htf : a.use_tf_idf = true →
      (a.tf_idf_norm = none ∨ a.tf_idf_norm = some "l2" ∨
        a.tf_idf_norm = some "l1"))
    (hstore : a.store_similarity_matrix = true)
    (hker : a.similarity_function = "cosine" ∨
      a.similarity_function = "neg_exp" ∨
      a.similarity_function = "laplacian" ∨
      a.similarity_function = "gaussian" ∨
      ((a.similarity_function = "div_by_sum" ∨
        a.similarity_function = "div_by_delta_max") ∧
        (a.similarity_norm = 1 ∨ a.similarity_norm = 2))) :
    ∃ S, (buildAfterGamma lib output X a g evs0).2 = .ok (.dense S) ∧
      BuildEv.saved (osPathJoin output "similarity_matrix.npy") S ∈
        (buildAfterGamma lib output X a g evs0).1 := by
  have hmem : ¬ (a.similarity_function ∉ kernelList) := by
    rcases hker with h | h | h | h | ⟨h | h, _⟩ <;> rw [h] <;> decide
  have hncos : ¬ a.similarity_function = "cosine_sparse" := by
    rcases hker with h | h | h | h | ⟨h | h, _⟩ <;> rw [h] <;> decide
  have hnns : ¬ a.similarity_function = "norm_sparse" := by
    rcases hker with h | h | h | h | ⟨h | h, _⟩ <;> rw [h] <;> decide
  have htf2 : ¬(a.use_tf_idf = true ∧ ¬(a.tf_idf_norm = none ∨
      a.tf_idf_norm = some "l2" ∨ a.tf_idf_norm = some "l1")) :=
    fun h => h.2 (htf h.1)
  rw [buildAfterGamma, if_neg hpow, if_neg hmem, if_neg htf2]
  simp only [if_neg hncos, if_neg hnns]
  exact denseKernel_saves lib output _ a g _ hstore hker

/-- C10 (amended): for every dense-kernel invocation of
`compute_similarity_matrix` with `store_similarity_matrix = True` and
otherwise valid parameters, the built dense similarity matrix (the n×n
array after the optional shift) is persisted via `np.save` — but the
file path is not chosen by the caller: it is the fixed filename
`similarity_matrix.npy` joined under the caller-specified output
directory `self.output`. -/
theorem C10_store_dense {N M : ℕ} (lib : LibOracles) (output : String)
    (X : Mat N M) (a : BuildArgs)
    (hnorm : ¬ a.similarity_norm < 1)
    (hgamma : ∀ g, a.similarity_gamma = some g → 0 < g)
    (hpow : ¬ a.similarity_power ≤ 0)
    (htf : a.use_tf_idf = true →
      (a.tf_idf_norm = none ∨ a.tf_idf_norm = some "l2" ∨
        a.tf_idf_norm = some "l1"))
    (hstore : a.store_similarity_matrix = true)
    (hker : a.similarity_function = "cosine" ∨
      a.similarity_function = "neg_exp" ∨
      a.similarity_function = "laplacian" ∨
      a.similarity_function = "gaussian" ∨
      ((a.similarity_function = "div_by_sum" ∨
        a.similarity_function = "div_by_delta_max") ∧
        (a.similarity_norm = 1 ∨ a.similarity_norm = 2))) :
    ∃ S, (compute_similarity_matrix lib output X a).2 = .ok (.dense S) ∧
      BuildEv.saved (osPathJoin output "similarity_matrix.npy") S ∈
        (compute_similarity_matrix lib output X a).1 := by
  rw [compute_similarity_matrix, if_neg hnorm]
  cases hg : a.similarity_gamma with
  | none =>
    dsimp only
    exact buildAfterGamma_dense_saves lib output X a _ _ hpow htf hstore hker
  | some g =>
    dsimp only
    rw [if_neg (not_le.mpr (hgamma g hg))]
    exact buildAfterGamma_dense_saves lib output X a _ _ hpow htf hstore hker

/-- Arguments selecting the dense cosine kernel with persistence on. -/
def cosStoreArgs : BuildArgs where
  shift_similarity_matrix := 0
  shift_until_nonnegative := false
  store_similarity_matrix := true
  normalize_rows := false
  similarity_function := "cosine"
  similarity_norm := 2
  similarity_power := 1
  similarity_gamma := some 1
  use_tf_idf := false
  tf_idf_norm := none
  tf_idf_smooth := true

/-- C10 counterexample: with the caller-specified output location
`"results"`, the dense cosine build with persistence on writes exactly
one file, at `"results/similarity_matrix.npy"` — a path derived by
appending a hardcoded filename — and writes nothing at the
caller-specified path itself, refuting the claim that the array is
persisted to a file path specified by the caller. -/
theorem C10_claim_counterexample :
    savedPaths ((compute_similarity_matrix trivLib "results"
        ((fun _ _ => 0) : Mat 1 1) cosStoreArgs).1)
      = ["results/similarity_matrix.npy"] ∧
    "results" ∉ savedPaths ((compute_similarity_matrix trivLib "results"
        ((fun _ _ => 0) : Mat 1 1) cosStoreArgs).1) ∧
    ("results/similarity_matrix.npy" : String) ≠ "results" := by
  have h1 : savedPaths ((compute_similarity_matrix trivLib "results"
      ((fun _ _ => 0) : Mat 1 1) cosStoreArgs).1)
      = ["results/similarity_matrix.npy"] := rfl
  refine ⟨h1, ?_, by decide⟩
  rw [h1]
  decide

theorem C10_store_dense_witness :
    ∃ S, (compute_similarity_matrix trivLib "results"
        ((fun _ _ => 0) : Mat 1 1) cosStoreArgs).2 = .ok (.dense S) ∧
      BuildEv.saved (osPathJoin "results" "similarity_matrix.npy") S ∈
        (compute_similarity_matrix trivLib "results"
          ((fun _ _ => 0) : Mat 1 1) cosStoreArgs).1 :=
  C10_store_dense trivLib "results" ((fun _ _ => 0) : Mat 1 1) cosStoreArgs
    (by norm_num [cosStoreArgs])
    (fun g hg => by
      have h1 : (1 : ℚ) = g := Option.some.inj hg
      rw [← h1]
      norm_num)
    (by norm_num [cosStoreArgs]) (fun h => Bool.noConfusion h) rfl
    (Or.inl rfl)

/-! ## Row normalization (C7) -/

/-- Float division as numpy performs it inside the normalizers: dividing
by a zero norm yields a non-finite value (NaN for the `0.0/0.0` entries
of a zero row), modelled as `none`; a finite quotient is `some q`. -/
def pyDiv (a b : ℚ) : Option ℚ :=
  if b = 0 then none else some (a / b)

/-- The entries of a row in column order — the dense view. -/
def rowList {m : ℕ} (r : Fin m → ℚ) : List ℚ :=
  (List.finRange m).map r

/-- The stored data of a CSR row: its nonzero entries, in column order
(`row.data` for a matrix with canonical CSR storage). -/
def storedList {m : ℕ} (r : Fin m → ℚ) : List ℚ :=
  ((List.finRange m).map r).filter (fun x => decide (x ≠ 0))

/-- Norm `np.linalg.norm(·, ord=1)` of a 1-D array: the l1 norm, the
exactly-representable member of the p-norm family selected by
`similarity_norm = 1`. -/
def pnorm1 (l : List ℚ) : ℚ := (l.map (fun x => |x|)).sum

/-- Function `normalize_dense_rows`:
`row /= np.linalg.norm(row, ord=similarity_norm)` — every entry of every
row is divided by the row's norm, unconditionally. -/
def normalize_dense_rows {n m : ℕ} (X : Mat n m) :
    Fin n → Fin m → Option ℚ :=
  fun i j => pyDiv (X i j) (pnorm1 (rowList (X i)))

/-- Function `normalize_sparse_rows`: for each row, the stored data slice is
divided by the norm of the stored data and written back through
`self.X.data[start:end]`; entries that are not stored (zeros) are left
untouched. -/
def normalize_sparse_rows {n m : ℕ} (X : Mat n m) :
    Fin n → Fin m → Option ℚ :=
  fun i j =>
    if X i j = 0 then some (X i j)
    else pyDiv (X i j) (pnorm1 (storedList (X i)))

/-- C7 counterexample: on the 1×1 zero matrix the row norm is 0; the
dense path divides the zero entry by the zero norm and produces a
non-finite value (NaN), while the sparse path has an empty data slice
and leaves the row unchanged at 0 — so the two paths are not entrywise
equal on a matrix containing a zero-norm row. -/
theorem C7_claim_counterexample :
    pnorm1 (rowList (((fun _ _ => 0) : Mat 1 1) 0)) = 0 ∧
    normalize_dense_rows ((fun _ _ => 0) : Mat 1 1) 0 0 = none ∧
    normalize_sparse_rows ((fun _ _ => 0) : Mat 1 1) 0 0 = some 0 ∧
    normalize_dense_rows ((fun _ _ => 0) : Mat 1 1) 0 0 ≠
      normalize_sparse_rows ((fun _ _ => 0) : Mat 1 1) 0 0 := by
  have h0 : pnorm1 (rowList (((fun _ _ => 0) : Mat 1 1) 0)) = 0 := by
    simp [pnorm1, rowList]
  have hd : normalize_dense_rows ((fun _ _ => 0) : Mat 1 1) 0 0 = none := by
    simp [normalize_dense_rows, pyDiv, h0]
  have hs : normalize_sparse_rows ((fun _ _ => 0) : Mat 1 1) 0 0
      = some 0 := by
    simp [normalize_sparse_rows]
  refine ⟨h0, hd, hs, ?_⟩
  rw [hd, hs]
  simp

lemma pnorm1_nonneg (l : List ℚ) : 0 ≤ pnorm1 l := by
  refine List.sum_nonneg ?_
  intro x hx
  obtain ⟨y, _, hy⟩ := List.mem_map.mp hx
  exact hy ▸ abs_nonneg y

/-- Dropping the zero entries of a row does not change its l1 norm, so
the sparse path (norm of the stored data) and the dense path (norm of
the whole row) use the same divisor. -/
lemma pnorm1_storedList {m : ℕ} (r : Fin m → ℚ) :
    pnorm1 (storedList r) = pnorm1 (rowList r) := by
  rw [storedList, rowList]
  generalize (List.finRange m).map r = l
  induction l with
  | nil => rfl
  | cons x xs ih =>
    by_cases hx : x = 0
    · simp [pnorm1, List.filter_cons, hx] at ih ⊢
      exact ih
    · simp [pnorm1, List.filter_cons, hx] at ih ⊢
      rw [ih]

lemma pnorm1_map_eq_sum {m : ℕ} (f : Fin m → ℚ) :
    pnorm1 ((List.finRange m).map f) = ∑ j, |f j| := by
  rw [pnorm1, List.map_map, Fin.sum_univ_def]
  rfl

/-- C7 (amended): the dense and sparse row-normalization paths agree
entrywise on every row whose norm is nonzero, and such a row ends with
p-norm exactly 1 in exact arithmetic (hence within `1e-9` of 1); on a
zero-norm row the two paths disagree — the dense path divides by zero
and produces non-finite entries while the sparse path leaves the row
unchanged.  Stated at the exactly representable `similarity_norm = 1`
instance of `np.linalg.norm`. -/
theorem C7_row_normalization {n m : ℕ} (X : Mat n m) (i : Fin n)
    (hnz : pnorm1 (rowList (X i)) ≠ 0) :
    (∀ j, normalize_dense_rows X i j = normalize_sparse_rows X i j) ∧
    pnorm1 ((List.finRange m).map
      (fun j => (normalize_dense_rows X i j).getD 0)) = 1 := by
  have hpos : 0 < pnorm1 (rowList (X i)) :=
    lt_of_le_of_ne (pnorm1_nonneg _) (Ne.symm hnz)
  constructor
  · intro j
    by_cases hz : X i j = 0
    · simp [normalize_dense_rows, normalize_sparse_rows, hz, pyDiv, hnz]
    · simp [normalize_dense_rows, normalize_sparse_rows, hz, pyDiv,
        pnorm1_storedList]
  · rw [pnorm1_map_eq_sum]
    have hterm : ∀ j : Fin m, |(normalize_dense_rows X i j).getD 0|
        = |X i j| / pnorm1 (rowList (X i)) := by
      intro j
      simp [normalize_dense_rows, pyDiv, hnz, abs_div, abs_of_pos hpos]
    rw [Finset.sum_congr rfl (fun j _ => hterm j), ← Finset.sum_div,
      show (∑ j, |X i j|) = pnorm1 (rowList (X i)) from
        (pnorm1_map_eq_sum (X i)).symm,
      div_self hnz]

theorem C7_row_normalization_witness :
    pnorm1 (rowList (((fun _ _ => 1) : Mat 1 1) 0)) ≠ 0 ∧
    ((∀ j, normalize_dense_rows ((fun _ _ => 1) : Mat 1 1) 0 j
        = normalize_sparse_rows ((fun _ _ => 1) : Mat 1 1) 0 j) ∧
      pnorm1 ((List.finRange 1).map
        (fun j => (normalize_dense_rows ((fun _ _ => 1) : Mat 1 1) 0 j).getD
          0)) = 1) :=
  ⟨by norm_num [pnorm1, rowList],
    C7_row_normalization ((fun _ _ => 1) : Mat 1 1) 0
      (by norm_num [pnorm1, rowList])⟩

/-! ## compute_diameter_for_observations (C9) -/

/-- The `lp_norm` string argument (`"l1"` maps to order 1, the default
`"l2"` to order 2). -/
inductive LpTag
  | l1
  | l2
  deriving DecidableEq, Repr

/-- Squared l2 distance, exact. -/
def sqDist {m : ℕ} (x y : Fin m → ℚ) : ℚ := ∑ k, (x k - y k) ^ 2

/-- Distance `np.linalg.norm(x - y, ord=p)` for `p ∈ {1, 2}` on rational points:
the l1 norm is the (rational) sum of absolute coordinate differences,
the l2 norm the real square root of the sum of squares. -/
noncomputable def lpDist {m : ℕ} (t : LpTag) (x y : Fin m → ℚ) : ℝ :=
  match t with
  | .l1 => ((∑ k, |x k - y k| : ℚ) : ℝ)
  | .l2 => Real.sqrt ((sqDist x y : ℚ) : ℝ)

/-- Mean `centroid = matrix.mean(axis=0)`. -/
def centroid {n m : ℕ} (X : Mat n m) : Fin m → ℚ :=
  fun k => (∑ i, X i k) / n

/-- The default strategy of `compute_diameter_for_observations`:
`max_norm = 0; for row in matrix: if max_norm < dist: max_norm = dist;
return 2 * max_norm`. -/
noncomputable def compute_diameter_default {n m : ℕ} (t : LpTag)
    (X : Mat n m) : ℝ :=
  2 * ((List.finRange n).map
    (fun i => lpDist t (X i) (centroid X))).foldl
      (fun mn d => if mn < d then d else mn) 0

/-- The brute-force strategy:
`pairwise_distances(matrix, metric=lp_norm).max()` — the maximum entry
of the full n×n distance matrix.  For a non-empty matrix the fold with
initial value 0 coincides with the numpy maximum because the diagonal
entries are 0 and every entry is nonnegative. -/
noncomputable def compute_diameter_brute {n m : ℕ} (t : LpTag)
    (X : Mat n m) : ℝ :=
  ((List.finRange n).flatMap
    (fun i => (List.finRange n).map (fun j => lpDist t (X i) (X j)))).foldl
      max 0

lemma loopmax_eq_max :
    (fun (mn d : ℝ) => if mn < d then d else mn) = max := by
  funext a b
  rcases lt_or_le a b with h | h
  · rw [if_pos h, max_eq_right h.le]
  · rw [if_neg (not_lt.mpr h), max_eq_left h]

lemma le_foldl_max_init (l : List ℝ) (a : ℝ) : a ≤ l.foldl max a := by
  induction l generalizing a with
  | nil => exact le_refl a
  | cons x xs ih => exact le_trans (le_max_left a x) (ih (max a x))

lemma mem_le_foldl_max {l : List ℝ} (a : ℝ) :
    ∀ x ∈ l, x ≤ l.foldl max a := by
  induction l generalizing a with
  | nil => intro x hx; cases hx
  | cons y ys ih =>
    intro x hx
    rcases List.mem_cons.mp hx with h | h
    · subst h
      exact le_trans (le_max_right a x) (le_foldl_max_init ys (max a x))
    · exact ih (max a y) x h

lemma foldl_max_le {l : List ℝ} {a b : ℝ} (ha : a ≤ b)
    (hl : ∀ x ∈ l, x ≤ b) : l.foldl max a ≤ b := by
  induction l generalizing a with
  | nil => exact ha
  | cons x xs ih =>
    exact ih (max_le ha (hl x (List.mem_cons_self x xs))) fun y hy =>
      hl y (List.mem_cons_of_mem x hy)

lemma l1_triangle {m : ℕ} (x y z : Fin m → ℚ) :
    (∑ k, |x k - y k|) ≤ (∑ k, |x k - z k|) + (∑ k, |z k - y k|) := by
  rw [← Finset.sum_add_distrib]
  refine Finset.sum_le_sum fun k _ => ?_
  calc |x k - y k| = |(x k - z k) + (z k - y k)| := by ring_nf
    _ ≤ |x k - z k| + |z k - y k| := abs_add _ _

/-- Reinterpret a real vector as a point of the l2 space
`EuclideanSpace ℝ (Fin m)` (fixing the Euclidean norm instance). -/
noncomputable def toEuc {m : ℕ} (v : Fin m → ℝ) : EuclideanSpace ℝ (Fin m) :=
  (WithLp.equiv 2 (Fin m → ℝ)).symm v

lemma sqrt_sqDist_eq_norm {m : ℕ} (x y : Fin m → ℚ) :
    Real.sqrt ((sqDist x y : ℚ) : ℝ)
      = ‖toEuc (fun k => ((x k : ℝ) - y k))‖ := by
  have h := EuclideanSpace.norm_eq (toEuc (fun k => ((x k : ℝ) - y k)))
  refine Eq.trans ?_ h.symm
  congr 1
  rw [sqDist]
  push_cast
  refine Finset.sum_congr rfl fun k _ => ?_
  rw [Real.norm_eq_abs, sq_abs]
  rfl

lemma l2_triangle {m : ℕ} (x y z : Fin m → ℚ) :
    Real.sqrt ((sqDist x y : ℚ) : ℝ)
      ≤ Real.sqrt ((sqDist x z : ℚ) : ℝ)
        + Real.sqrt ((sqDist z y : ℚ) : ℝ) := by
  rw [sqrt_sqDist_eq_norm, sqrt_sqDist_eq_norm, sqrt_sqDist_eq_norm]
  have hsum : toEuc (fun k => ((x k : ℝ) - y k))
      = toEuc (fun k => ((x k : ℝ) - z k))
        + toEuc (fun k => ((z k : ℝ) - y k)) := by
    funext k
    show ((x k : ℝ) - y k) = ((x k : ℝ) - z k) + ((z k : ℝ) - y k)
    ring
  rw [hsum]
  exact norm_add_le _ _

lemma lpDist_triangle {m : ℕ} (t : LpTag) (x y z : Fin m → ℚ) :
    lpDist t x y ≤ lpDist t x z + lpDist t z y := by
  cases t
  · simp only [lpDist]
    exact_mod_cast l1_triangle x y z
  · exact l2_triangle x y z

lemma lpDist_symm {m : ℕ} (t : LpTag) (x y : Fin m → ℚ) :
    lpDist t x y = lpDist t y x := by
  cases t
  · simp only [lpDist]
    norm_cast
    exact Finset.sum_congr rfl fun k _ => abs_sub_comm _ _
  · simp only [lpDist]
    congr 1
    norm_cast
    exact Finset.sum_congr rfl fun k _ => by ring

/-- C9: for every finite non-empty point set (the rows of a matrix) and
`p ∈ {1, 2}`, the default strategy of `compute_diameter_for_observations`
returns exactly 2 times the maximum distance from the centroid, and this
value is greater than or equal to the exact maximum pairwise distance
returned by the brute-force strategy on the same point set (triangle
inequality through the centroid). -/
theorem C9_diameter_bound {n m : ℕ} (t : LpTag) (X : Mat n m)
    (_hn : 0 < n) :
    compute_diameter_default t X
      = 2 * ((List.finRange n).map
          (fun i => lpDist t (X i) (centroid X))).foldl max 0 ∧
    compute_diameter_brute t X ≤ compute_diameter_default t X := by
  have hdef : compute_diameter_default t X
      = 2 * ((List.finRange n).map
          (fun i => lpDist t (X i) (centroid X))).foldl max 0 := by
    rw [compute_diameter_default, loopmax_eq_max]
  refine ⟨hdef, ?_⟩
  rw [hdef, compute_diameter_brute]
  set Mx : ℝ := ((List.finRange n).map
    (fun i => lpDist t (X i) (centroid X))).foldl max 0 with hMx
  have hM0 : (0 : ℝ) ≤ Mx := le_foldl_max_init _ 0
  have hMi : ∀ i, lpDist t (X i) (centroid X) ≤ Mx := by
    intro i
    exact mem_le_foldl_max 0 _
      (List.mem_map.mpr ⟨i, List.mem_finRange i, rfl⟩)
  refine foldl_max_le (by linarith) ?_
  intro d hd
  simp only [List.mem_flatMap, List.mem_map, List.mem_finRange,
    true_and] at hd
  obtain ⟨i, j, rfl⟩ := hd
  have h1 : lpDist t (X i) (X j)
      ≤ lpDist t (X i) (centroid X) + lpDist t (centroid X) (X j) :=
    lpDist_triangle t _ _ _
  have h2 : lpDist t (centroid X) (X j) = lpDist t (X j) (centroid X) :=
    lpDist_symm t _ _
  have h3 := hMi i
  have h4 := hMi j
  linarith

theorem C9_diameter_bound_witness :
    0 < 1 ∧
    (compute_diameter_default LpTag.l1 ((fun _ _ => 0) : Mat 1 1)
        = 2 * ((List.finRange 1).map
            (fun i => lpDist LpTag.l1 (((fun _ _ => 0) : Mat 1 1) i)
              (centroid ((fun _ _ => 0) : Mat 1 1)))).foldl max 0 ∧
      compute_diameter_brute LpTag.l1 ((fun _ _ => 0) : Mat 1 1)
        ≤ compute_diameter_default LpTag.l1 ((fun _ _ => 0) : Mat 1 1)) :=
  ⟨Nat.one_pos,
    C9_diameter_bound LpTag.l1 ((fun _ _ => 0) : Mat 1 1) Nat.one_pos⟩

end TMC
